import Mathlib

/-!
Shallow embedding of the extraction-and-normalization pipeline of
`clade/extensions/info.py` (class `Info` and the module-level function
`normalize_file`), together with theorems checking the specification's
claims about it.

Strings are modelled as Lean `String` / `List Char` (one `Char` per byte of
the original, all inputs being ASCII in the modelled grammars).  The small
Python regexes of the decoders are modelled by an executable backtracking
matcher over a token list (`Tok`), with Python `re` semantics for the
constructs actually used by the source: literal characters, greedy and lazy
stars over a one-character class, and greedy plus over a one-character
class.  `re.match` anchors at the start of the string only.
-/

/-! ### List/string utilities (denotations of the Python primitives used) -/

/-- Boolean test that `pat` starts `s` (denotation of Python `str.startswith`
and of anchored regex literal matching). -/
def isPre : List Char → List Char → Bool
  | [], _ => true
  | _ :: _, [] => false
  | a :: as, b :: bs => a = b && isPre as bs

/-- Boolean test that `pat` ends `s` (denotation of Python `str.endswith`). -/
def isSuf (pat s : List Char) : Bool :=
  isPre pat.reverse s.reverse

/-- Index of the first occurrence of `pat` in `s` (denotation of Python
`str.find`, `none` for `-1`). -/
def findSub (pat : List Char) : List Char → Option Nat
  | [] => if pat.isEmpty then some 0 else none
  | c :: rest => if isPre pat (c :: rest) then some 0 else (findSub pat rest).map (· + 1)

/-- Denotation of the Python substring test `pat in s`: `pat` occurs at
some position of `s`. -/
def containsSub (pat : List Char) : List Char → Bool
  | [] => pat.isEmpty
  | c :: rest => isPre pat (c :: rest) || containsSub pat rest

/-- One step of Python `s.replace(old, "")`: fuelled left-to-right removal of
every non-overlapping occurrence of `old`.  A fuel of `s.length` always
suffices because every recursive call consumes at least one character of
`s` (`old` is non-empty whenever a removal happens). -/
def replaceAllFuel (old : List Char) : Nat → List Char → List Char
  | _, [] => []
  | 0, s => s
  | fuel + 1, c :: rest =>
    if !old.isEmpty && isPre old (c :: rest) then
      replaceAllFuel old fuel ((c :: rest).drop old.length)
    else
      c :: replaceAllFuel old fuel rest

/-- Denotation of Python `s.replace(old, "")`: removes every non-overlapping
occurrence of `old`, scanning left to right. -/
def replaceAll (old s : List Char) : List Char :=
  replaceAllFuel old s.length s

/-- Fuelled splitting on a separator substring; fuel `s.length + 1` always
suffices for a non-empty separator. -/
def splitOnSubFuel (sep : List Char) : Nat → List Char → List (List Char)
  | 0, s => [s]
  | fuel + 1, s =>
    match findSub sep s with
    | none => [s]
    | some i => s.take i :: splitOnSubFuel sep fuel (s.drop (i + sep.length))

/-- Denotation of Python `s.split(sep)` for a non-empty separator. -/
def splitOnSub (sep s : List Char) : List (List Char) :=
  splitOnSubFuel sep (s.length + 1) s

/-- Splits `(head, tail)` at the last `'/'`, the slash kept at the end of
`head` (the split performed inside Python `posixpath.split`). -/
def splitAtLastSlash : List Char → (List Char × List Char)
  | [] => ([], [])
  | c :: rest =>
    if '/' ∈ rest then
      ((splitAtLastSlash rest).1.cons c, (splitAtLastSlash rest).2)
    else if c = '/' then ([c], rest)
    else ([], c :: rest)

/-- Removes trailing `'/'` characters. -/
def rstripSlash (l : List Char) : List Char :=
  (l.reverse.dropWhile (fun c => c = '/')).reverse

/-- Denotation of Python `os.path.dirname` on POSIX paths: everything before
the last slash, with trailing slashes stripped unless the head consists of
slashes only. -/
def dirname (s : String) : String :=
  let head := (splitAtLastSlash s.data).1
  if head.isEmpty || head.all (fun c => c = '/') then String.mk head
  else String.mk (rstripSlash head)

/-- Element read at an index, `""` out of range (Python `content[i]` on the
index range the grammars guarantee). -/
def getIdx : List String → Nat → String
  | [], _ => ""
  | x :: _, 0 => x
  | _ :: xs, n + 1 => getIdx xs n

/-- In-place update of one element (Python `content[i] = f(content[i])`);
out-of-range indices leave the list unchanged. -/
def modIdx {α : Type} (f : α → α) : Nat → List α → List α
  | _, [] => []
  | 0, x :: xs => f x :: xs
  | n + 1, x :: xs => x :: modIdx f n xs

/-- First value bound to key `k` in an association list (the `paths` dict of
`Info.__fix_wrong_paths`). -/
def lookupK (k : String) : List (String × String) → Option String
  | [] => none
  | (k', v) :: rest => if k = k' then some v else lookupK k rest

/-! ### The regex fragment used by the decoders -/

/-- One token of the anchored patterns used by `Info`'s decoders.  `cap`
records whether the token is a capturing group. -/
inductive Tok where
  | lit (c : Char)
  | starG (p : Char → Bool) (cap : Bool)
  | starL (p : Char → Bool) (cap : Bool)
  | plusG (p : Char → Bool) (cap : Bool)

/-- Python `\s` on the ASCII range. -/
def isWSC (c : Char) : Bool :=
  c = ' ' || c = '\t' || c = '\n' || c = '\r' || c = '\x0b' || c = '\x0c'

/-- Python `\S` on the ASCII range. -/
def notWS (c : Char) : Bool := !isWSC c

/-- Python `.` without `DOTALL`: any character but a newline. -/
def isDotC (c : Char) : Bool := c != '\n'

/-- Python `[^']`: any character but an apostrophe. -/
def notQuoteC (c : Char) : Bool := c != '\''

/-- Python `\d` on the ASCII range. -/
def isDigitC (c : Char) : Bool := c.isDigit

/-- Python `\w` on the ASCII range. -/
def isWordC (c : Char) : Bool := c.isAlphanum || c = '_'

/-- Tries, in order, each candidate number of characters a star/plus token
may consume, running the continuation `k` on the remaining input; the
first successful continuation wins (regex backtracking). -/
def tryCands (k : List Char → Option (List (List Char) × List Char)) (cap : Bool)
    (s : List Char) : List Nat → Option (List (List Char) × List Char)
  | [] => none
  | n :: ns =>
    match k (s.drop n) with
    | some (gs, rest) => some (if cap then s.take n :: gs else gs, rest)
    | none => tryCands k cap s ns

/-- Backtracking matcher for a token list, anchored at the start of the
input (Python `regex.match`).  Returns the list of captured groups in
pattern order and the unconsumed remainder of the input.  A greedy star
tries the longest possible run of its class first, a lazy star the
shortest, a greedy plus the longest run down to one character. -/
def mtch : List Tok → List Char → Option (List (List Char) × List Char)
  | [] => fun s => some ([], s)
  | .lit c :: ts => fun s =>
    match s with
    | [] => none
    | x :: s' => if x = c then mtch ts s' else none
  | .starG p cap :: ts => fun s =>
    tryCands (mtch ts) cap s ((List.range ((s.takeWhile p).length + 1)).reverse)
  | .starL p cap :: ts => fun s =>
    tryCands (mtch ts) cap s (List.range ((s.takeWhile p).length + 1))
  | .plusG p cap :: ts => fun s =>
    tryCands (mtch ts) cap s ((List.range' 1 (s.takeWhile p).length).reverse)

/-- Number of capturing groups of a pattern. -/
def countCaptures : List Tok → Nat
  | [] => 0
  | .lit _ :: ts => countCaptures ts
  | .starG _ cap :: ts => (if cap then 1 else 0) + countCaptures ts
  | .starL _ cap :: ts => (if cap then 1 else 0) + countCaptures ts
  | .plusG _ cap :: ts => (if cap then 1 else 0) + countCaptures ts

/-- Fuelled scan of Python `regex.findall`: attempt a match at every
position left to right, skipping over each non-overlapping match; a fuel of
`s.length` suffices since every step consumes at least one character. -/
def findAllFuel (toks : List Tok) : Nat → List Char → List (List (List Char))
  | _, [] =>
    match mtch toks [] with
    | some (gs, _) => [gs]
    | none => []
  | 0, _ => []
  | fuel + 1, c :: rest =>
    match mtch toks (c :: rest) with
    | none => findAllFuel toks fuel rest
    | some (gs, remaining) =>
      if remaining.length = (c :: rest).length then gs :: findAllFuel toks fuel rest
      else gs :: findAllFuel toks fuel remaining

/-- Denotation of Python `regex.findall(s)` for the patterns used here. -/
def findAll (toks : List Tok) (s : List Char) : List (List (List Char)) :=
  findAllFuel toks s.length s

/-- The leading `\"(.*?)\"` of every category grammar. -/
def quotedLazy : List Tok :=
  [Tok.lit '"', Tok.starL isDotC true, Tok.lit '"']

/-- Grammar of `Info.iter_definitions`:
`\"(.*?)\" (\S*) (\S*) (\S*) (\S*) ([^']*)\n`. -/
def definitionsToks : List Tok :=
  quotedLazy ++
    [Tok.lit ' ', Tok.starG notWS true, Tok.lit ' ', Tok.starG notWS true,
     Tok.lit ' ', Tok.starG notWS true, Tok.lit ' ', Tok.starG notWS true,
     Tok.lit ' ', Tok.starG notQuoteC true, Tok.lit '\n']

/-- Grammar of `Info.iter_declarations` (textually identical to the
definitions grammar in the source). -/
def declarationsToks : List Tok :=
  quotedLazy ++
    [Tok.lit ' ', Tok.starG notWS true, Tok.lit ' ', Tok.starG notWS true,
     Tok.lit ' ', Tok.starG notWS true, Tok.lit ' ', Tok.starG notWS true,
     Tok.lit ' ', Tok.starG notQuoteC true, Tok.lit '\n']

/-- Grammar of `Info.iter_init_global`:
`\"(.*?)\" \"(.*?);\" (\S*) (\S*) (.*)\n`. -/
def initGlobalToks : List Tok :=
  quotedLazy ++
    [Tok.lit ' ', Tok.lit '"', Tok.starL isDotC true, Tok.lit ';', Tok.lit '"',
     Tok.lit ' ', Tok.starG notWS true, Tok.lit ' ', Tok.starG notWS true,
     Tok.lit ' ', Tok.starG isDotC true, Tok.lit '\n']

/-- Grammar of `Info.iter_calls`:
`\"(.*?)\" (\S*) (\S*) (\S*) (\S*) (\S*) (.*)`. -/
def callsToks : List Tok :=
  quotedLazy ++
    [Tok.lit ' ', Tok.starG notWS true, Tok.lit ' ', Tok.starG notWS true,
     Tok.lit ' ', Tok.starG notWS true, Tok.lit ' ', Tok.starG notWS true,
     Tok.lit ' ', Tok.starG notWS true, Tok.lit ' ', Tok.starG isDotC true]

/-- Grammar of `Info.iter_functions_usages`:
`\"(.*?)\" (\S*) (\S*) (\S*) (\S*) (\S*)`. -/
def useFuncToks : List Tok :=
  quotedLazy ++
    [Tok.lit ' ', Tok.starG notWS true, Tok.lit ' ', Tok.starG notWS true,
     Tok.lit ' ', Tok.starG notWS true, Tok.lit ' ', Tok.starG notWS true,
     Tok.lit ' ', Tok.starG notWS true]

/-- Inner grammar of the `iter_calls` argument list:
`actual_arg_func_name(\d+)=\s*(\w+)\s*`, used with `findall`. -/
def callArgsToks : List Tok :=
  ("actual_arg_func_name".data.map Tok.lit) ++
    [Tok.plusG isDigitC true, Tok.lit '=', Tok.starG isWSC false,
     Tok.plusG isWordC true, Tok.starG isWSC false]

/-! ### Archive decoding (`Info.__iter_file`, `Info.__iter_file_regex` and
the per-category decoders)

An archive is modelled as the list of its stored members, each a pair of
the member name and the member's lines (each line carrying its trailing
newline, as produced by iterating the stored text file).  Decoding is
modelled as the pair of the records yielded before the run ends and an
optional error: `none` when the whole archive decoded, `some e` when the
run aborted (`raise RuntimeError` / `raise SyntaxError` in the source). -/

/-- `Info.__iter_file`: reconstructs the lines of one stored member,
re-inserting the leading path separator consumed by the archival step; a
member whose directory component contains `\/` is rejected before any line
is produced, and a macro-expansion member has its directory component split
at `/CLADE-EXPAND` into the two path fields. -/
def reconstructMember (file : String) (content : List String) : Except String (List String) :=
  let path := dirname file
  if containsSub ['\\', '/'] path.data then
    Except.error ("Normalized path looks weird: " ++ path)
  else if isSuf "expand.txt".data file.data then
    match splitOnSub "/CLADE-EXPAND".data path.data with
    | [p, d] =>
      Except.ok (content.map fun line =>
        "\"/" ++ String.mk p ++ "\" \"" ++ String.mk d ++ "\" " ++ line)
    | _ => Except.error "ValueError: expected exactly one CLADE-EXPAND marker"
  else
    Except.ok (content.map fun line => "\"/" ++ path ++ "\" " ++ line)

/-- The record built from one matched line: the captured groups, the first
one (always the subject path) replaced by its canonical form
(`content[0] = ...get_canonical_path(content[0])`). -/
def mkRecord (canon : String → String) (gs : List (List Char)) : List String :=
  modIdx canon 0 (gs.map String.mk)

/-- The record the decoder would yield for a line, `mkRecord` of the
groups of its match (meaningful on lines that match). -/
def recordOf (toks : List Tok) (canon : String → String) (l : String) : List String :=
  mkRecord canon (((mtch toks l.data).map Prod.fst).getD [])

/-- The line-level loop of `Info.__iter_file_regex`: each line is matched
against the grammar; a non-matching line aborts the run with an error after
the records of the earlier lines were already yielded. -/
def decodeLines (toks : List Tok) (canon : String → String) :
    List String → List (List String) × Option String
  | [] => ([], none)
  | l :: ls =>
    match mtch toks l.data with
    | none => ([], some ("CIF output has unexpected format: " ++ l))
    | some (gs, _) =>
      (mkRecord canon gs :: (decodeLines toks canon ls).1, (decodeLines toks canon ls).2)

/-- `Info.__iter_file_regex`: iterates the stored members of an archive,
reconstructs each member's lines and decodes them; an error while
reconstructing or decoding a member aborts the whole run, keeping the
records yielded up to that point. -/
def iterFileRegex (toks : List Tok) (canon : String → String) :
    List (String × List String) → List (List String) × Option String
  | [] => ([], none)
  | (name, content) :: rest =>
    match reconstructMember name content with
    | Except.error e => ([], some e)
    | Except.ok ls =>
      match (decodeLines toks canon ls).2 with
      | some err => ((decodeLines toks canon ls).1, some err)
      | none =>
        ((decodeLines toks canon ls).1 ++ (iterFileRegex toks canon rest).1,
         (iterFileRegex toks canon rest).2)

/-- The linkage post-processing shared by the decoders:
`"extern" if tok != "static" else "static"`. -/
def normalizeLinkage (s : String) : String :=
  if s ≠ "static" then "extern" else "static"

/-- `Info.iter_definitions`: definitions records with the linkage field
(index 4) normalized. -/
def iter_definitions (canon : String → String) (archive : List (String × List String)) :
    List (List String) × Option String :=
  ((iterFileRegex definitionsToks canon archive).1.map (modIdx normalizeLinkage 4),
   (iterFileRegex definitionsToks canon archive).2)

/-- `Info.iter_declarations`: declarations records with the linkage field
(index 4) normalized. -/
def iter_declarations (canon : String → String) (archive : List (String × List String)) :
    List (List String) × Option String :=
  ((iterFileRegex declarationsToks canon archive).1.map (modIdx normalizeLinkage 4),
   (iterFileRegex declarationsToks canon archive).2)

/-- `Info.iter_init_global`: global-initializer records with the linkage
field (index 3) normalized. -/
def iter_init_global (canon : String → String) (archive : List (String × List String)) :
    List (List String) × Option String :=
  ((iterFileRegex initGlobalToks canon archive).1.map (modIdx normalizeLinkage 3),
   (iterFileRegex initGlobalToks canon archive).2)

/-- `Info.iter_functions_usages`: usage records with the linkage field
(index 5) normalized. -/
def iter_functions_usages (canon : String → String) (archive : List (String × List String)) :
    List (List String) × Option String :=
  ((iterFileRegex useFuncToks canon archive).1.map (modIdx normalizeLinkage 5),
   (iterFileRegex useFuncToks canon archive).2)

/-- The argument-list re-parse of `Info.iter_calls`:
`args_regex.findall(content[-1])`, a list of `(position, name)` pairs in
textual order of occurrence. -/
def parseCallArgs (s : String) : List (String × String) :=
  (findAll callArgsToks s.data).map fun gs =>
    (String.mk (gs.getD 0 []), String.mk (gs.getD 1 []))

/-- `Info.iter_calls`: each record keeps its first six fields with the
linkage field (index 5) normalized, and its raw-args text (index 6)
replaced by the decoded argument list. -/
def iter_calls (canon : String → String) (archive : List (String × List String)) :
    List (List String × List (String × String)) × Option String :=
  ((iterFileRegex callsToks canon archive).1.map
      (fun r => ((modIdx normalizeLinkage 5 r).take 6, parseCallArgs (getIdx r 6))),
   (iterFileRegex callsToks canon archive).2)

/-- Reconstruction of a whole archive at once (used to state claims about
"every line of every stored member"): the concatenation of the
reconstructed lines of all members, an error if any member is rejected. -/
def reconstructArchive : List (String × List String) → Except String (List String)
  | [] => Except.ok []
  | (name, content) :: rest =>
    match reconstructMember name content with
    | Except.error e => Except.error e
    | Except.ok ls =>
      match reconstructArchive rest with
      | Except.error e => Except.error e
      | Except.ok ls2 => Except.ok (ls ++ ls2)

/-! ### Path normalization and packaging
(`Info.__normalize_path`, the archive-writing loop of
`Info.__normalize_cif_output`) -/

/-- `Info.__normalize_path`: Python
`path.replace(cif_output_dir, "").replace(storage_dir, "")`. -/
def normalize_path (outdir storage : String) (p : String) : String :=
  String.mk (replaceAll storage.data (replaceAll outdir.data p.data))

/-- Leading path separators removed, as `zipfile` does to an `arcname`
before storing a member (normalization of degenerate `.`/`..` segments is
not exercised by the modelled inputs). -/
def stripSlashes : List Char → List Char
  | '/' :: rest => stripSlashes rest
  | s => s

/-- The packaging loop of `Info.__normalize_cif_output` for one category:
keeps the repaired files whose name ends in the category's suffix and
stores each under its normalized path with leading separators removed. -/
def packageCategory (outdir storage suffix : String)
    (files : List (String × List String)) : List (String × List String) :=
  (files.filter fun f => isSuf suffix.data f.1.data).map fun f =>
    (String.mk (stripSlashes (normalize_path outdir storage f.1).data), f.2)

/-! ### Output repair (`Info.__fix_wrong_paths`) -/

/-- Appends `extra` to the lines of the file named `owner`
(the on-disk append of `Info.__fix_wrong_paths`). -/
def appendTo (files : List (String × List String)) (owner : String) (extra : List String) :
    List (String × List String) :=
  files.map fun g => if g.1 = owner then (g.1, g.2 ++ extra) else g

/-- One step of `Info.__fix_wrong_paths`: the state is the `paths` map
(normalized path to first file seen) and the files kept so far; a file
whose normalized path was already seen has its lines appended to the first
file and is dropped, any other file is recorded and kept. -/
def fix_step (np : String → String)
    (st : List (String × String) × List (String × List String))
    (f : String × List String) :
    List (String × String) × List (String × List String) :=
  match lookupK (np f.1) st.1 with
  | none => ((np f.1, f.1) :: st.1, st.2 ++ [f])
  | some owner => (st.1, appendTo st.2 owner f.2)

/-- `Info.__fix_wrong_paths` over the files in encounter order: merges every
file whose normalized path repeats an earlier one into the first file with
that path and removes it from the result. -/
def fix_wrong_paths (np : String → String) (files : List (String × List String)) :
    List (String × List String) :=
  (files.foldl (fix_step np) ([], [])).2

/-! ### Line deduplication (module-level `normalize_file`) -/

/-- Splits file content into its physical lines, each keeping its trailing
newline, the last line possibly without one (how iterating a Python file
object and `readlines` split content; neither ever yields an empty line). -/
def splitLines : List Char → List (List Char)
  | [] => []
  | c :: rest =>
    if c = '\n' then ['\n'] :: splitLines rest
    else
      match splitLines rest with
      | [] => [[c]]
      | l :: ls => (c :: l) :: ls

/-- The streaming (≥ 100 MiB) loop of `normalize_file`: lines whose digest
was already seen are dropped, and so are empty lines; `h` models the
`hashlib.md5(line).hexdigest()` digest. -/
def streamDedupAux (h : List Char → List Char) (seen : List (List Char)) :
    List (List Char) → List (List Char)
  | [] => []
  | l :: ls =>
    if l = [] then streamDedupAux h seen ls
    else if h l ∈ seen then streamDedupAux h seen ls
    else l :: streamDedupAux h (h l :: seen) ls

/-- The full-buffer (< 100 MiB) loop of `normalize_file`: lines whose
digest was already seen are dropped. -/
def bufferDedupAux (h : List Char → List Char) (seen : List (List Char)) :
    List (List Char) → List (List Char)
  | [] => []
  | l :: ls =>
    if h l ∈ seen then bufferDedupAux h seen ls
    else l :: bufferDedupAux h (h l :: seen) ls

/-- Modelled from the spec: the output line sequence the spec describes for
deduplication — the input lines with exactly the lines whose content equals
an earlier line removed, first occurrences kept in their original relative
order.  Used to compare the digest-based code paths against the spec's
words. -/
def keepFirstAux (seen : List (List Char)) : List (List Char) → List (List Char)
  | [] => []
  | l :: ls =>
    if l ∈ seen then keepFirstAux seen ls
    else l :: keepFirstAux (l :: seen) ls

/-- The streaming code path of `normalize_file` as a content transform. -/
def normalizeStreaming (h : List Char → List Char) (content : List Char) : List Char :=
  (streamDedupAux h [] (splitLines content)).flatten

/-- The full-buffer code path of `normalize_file` as a content transform. -/
def normalizeBuffered (h : List Char → List Char) (content : List Char) : List Char :=
  (bufferDedupAux h [] (splitLines content)).flatten

/-- Module-level `normalize_file` as a content transform: the streaming
path at or above the 100 MiB size threshold, the full-buffer path below
it.  `h` models the `md5` digest of a line. -/
def normalize_file (h : List Char → List Char) (content : List Char) : List Char :=
  if 104857600 ≤ content.length then normalizeStreaming h content
  else normalizeBuffered h content

/-! ### Command filter (`Info.__is_cmd_bad_for_cif`) -/

/-- Denotation of `re.search(r"\.[sS]$", s)` as a Boolean: `$` matches at
the end of the string or just before a newline that ends the string. -/
def matchesAsmRegex (s : String) : Bool :=
  isSuf ".s".data s.data || isSuf ".S".data s.data ||
    isSuf ".s\n".data s.data || isSuf ".S\n".data s.data

/-- `Info.__is_cmd_bad_for_cif` on the command's input list: ineligible when
there is no input, or some input is `-` or `/dev/null`, or some input
matches the assembler-suffix regex. -/
def is_cmd_bad_for_cif (ins : List String) : Bool :=
  ins.isEmpty ||
    ins.any fun i => i = "-" || i = "/dev/null" || matchesAsmRegex i

/-- Modelled from the spec: the ineligibility predicate as the claim words
it — no inputs, a `-` or `/dev/null` input, or an input whose name ends in
`.s` or `.S`. -/
def specIneligible (ins : List String) : Bool :=
  ins.isEmpty ||
    ins.any fun i => i = "-" || i = "/dev/null" ||
      isSuf ".s".data i.data || isSuf ".S".data i.data

/-- Modelled from the spec: the normalized logical path as the claim words
it — the path after stripping the output-root prefix, then the
storage-root prefix, leaving everything else unchanged. -/
def stripRootsSpec (outdir storage p : String) : String :=
  let q := if isPre outdir.data p.data then p.data.drop outdir.data.length else p.data
  String.mk (if isPre storage.data q then q.drop storage.data.length else q)

/-! ### Theorems for the claims -/

theorem isPre_iff (a b : List Char) : isPre a b = true ↔ a <+: b := by
  induction a generalizing b with
  | nil => simp [isPre]
  | cons x xs ih =>
    cases b with
    | nil => simp [isPre]
    | cons y ys => simp [isPre, List.cons_prefix_cons, ih]

theorem isSuf_iff (a b : List Char) : isSuf a b = true ↔ a <:+ b := by
  rw [isSuf, isPre_iff, List.reverse_prefix]

theorem isPre_append_self (a b : List Char) : isPre a (a ++ b) = true := by
  induction a with
  | nil => rfl
  | cons x xs ih => simp [isPre, ih]

theorem replaceAllFuel_no_occ (old : List Char) :
    ∀ (fuel : Nat) (s : List Char), containsSub old s = false → s.length ≤ fuel →
      replaceAllFuel old fuel s = s := by
  intro fuel
  induction fuel with
  | zero =>
    intro s h hl
    cases s with
    | nil => rfl
    | cons c rest => simp at hl
  | succ f ih =>
    intro s h hl
    cases s with
    | nil => rfl
    | cons c rest =>
      rw [containsSub, Bool.or_eq_false_iff] at h
      rw [replaceAllFuel, h.1, Bool.and_false, if_neg (by simp)]
      rw [ih rest h.2 (Nat.le_of_succ_le_succ hl)]

theorem replaceAll_strip_concat (old t : List Char) (hne : old ≠ [])
    (h : containsSub old t = false) : replaceAll old (old ++ t) = t := by
  obtain ⟨c, os, rfl⟩ : ∃ c os, old = c :: os := by
    cases old with
    | nil => exact absurd rfl hne
    | cons c os => exact ⟨c, os, rfl⟩
  show replaceAllFuel (c :: os) ((c :: os) ++ t).length ((c :: os) ++ t) = t
  have hlen : ((c :: os) ++ t).length = (os.length + t.length) + 1 := by
    simp [Nat.succ_add]
  rw [hlen]
  show replaceAllFuel (c :: os) ((os.length + t.length) + 1) (c :: (os ++ t)) = t
  rw [replaceAllFuel]
  have hpre : isPre (c :: os) (c :: (os ++ t)) = true := isPre_append_self (c :: os) t
  rw [hpre]
  simp only [List.isEmpty_cons, Bool.not_false, Bool.true_and, if_true]
  have hdrop : (c :: (os ++ t)).drop (c :: os).length = t := by
    show ((c :: os) ++ t).drop (c :: os).length = t
    exact List.drop_left (c :: os) t
  rw [hdrop]
  exact replaceAllFuel_no_occ (c :: os) (os.length + t.length) t h
    (Nat.le_add_left t.length os.length)

/-- C7 counterexample: with output root `/o` and storage root `/s`, the raw
path `/o/s/a/o/b` normalizes to `/a/b` (every occurrence of each root is
removed, the interior `/o` included), while stripping only the two leading
root prefixes would leave `/a/o/b`; the claim's equality fails. -/
theorem c7_counterexample :
    normalize_path "/o" "/s" "/o/s/a/o/b" ≠ stripRootsSpec "/o" "/s" "/o/s/a/o/b" := by
  decide

/-- C7 (amended): the normalized logical path is the raw path with every
occurrence of the output-root substring removed and then every occurrence
of the storage-root substring removed (Python `str.replace`); whenever the
output root occurs in the path only as its leading prefix and, after that
removal, the storage root occurs only as the leading prefix of the
remainder, this coincides with stripping the two prefixes and leaves every
other component unchanged. -/
theorem c7_normalize_path_amended (outdir storage : String) (r1 r2 : List Char)
    (ho : outdir.data ≠ []) (hs : storage.data ≠ [])
    (h1 : containsSub outdir.data r1 = false)
    (hr : r1 = storage.data ++ r2)
    (h2 : containsSub storage.data r2 = false) :
    normalize_path outdir storage (String.mk (outdir.data ++ r1)) = String.mk r2 ∧
    normalize_path outdir storage (String.mk (outdir.data ++ r1)) =
      stripRootsSpec outdir storage (String.mk (outdir.data ++ r1)) := by
  have e1 : replaceAll outdir.data (outdir.data ++ r1) = r1 :=
    replaceAll_strip_concat outdir.data r1 ho h1
  have e2 : replaceAll storage.data r1 = r2 := by
    rw [hr]; exact replaceAll_strip_concat storage.data r2 hs h2
  have emain : normalize_path outdir storage (String.mk (outdir.data ++ r1)) =
      String.mk r2 := by
    unfold normalize_path
    rw [show (String.mk (outdir.data ++ r1)).data = outdir.data ++ r1 from rfl, e1, e2]
  refine ⟨emain, emain.trans ?_⟩
  unfold stripRootsSpec
  simp only [show (String.mk (outdir.data ++ r1)).data = outdir.data ++ r1 from rfl,
    isPre_append_self, if_true, List.drop_left, hr]

/-- C7 witness: with output root `/out` and storage root `/st`, the raw
path `/out/st/a.c/execution.txt` (in which each root occurs only as the
leading prefix) normalizes to `/a.c/execution.txt`, agreeing with prefix
stripping. -/
theorem c7_witness :
    ("/out".data ≠ ([] : List Char)) ∧ ("/st".data ≠ ([] : List Char)) ∧
    containsSub "/out".data "/st/a.c/execution.txt".data = false ∧
    ("/st/a.c/execution.txt".data = "/st".data ++ "/a.c/execution.txt".data) ∧
    containsSub "/st".data "/a.c/execution.txt".data = false ∧
    normalize_path "/out" "/st" (String.mk ("/out".data ++ "/st/a.c/execution.txt".data)) =
      String.mk "/a.c/execution.txt".data :=
  ⟨by decide, by decide, by decide, by decide, by decide,
    (c7_normalize_path_amended "/out" "/st" "/st/a.c/execution.txt".data
      "/a.c/execution.txt".data (by decide) (by decide) (by decide) (by decide)
      (by decide)).1⟩

theorem splitLines_ne_nil : ∀ (s : List Char), ∀ l ∈ splitLines s, l ≠ [] := by
  intro s
  induction s with
  | nil => intro l hl; simp [splitLines] at hl
  | cons c rest ih =>
    intro l hl
    rw [splitLines] at hl
    by_cases hc : c = '\n'
    · rw [if_pos hc] at hl
      rcases List.mem_cons.mp hl with rfl | hl
      · simp
      · exact ih l hl
    · rw [if_neg hc] at hl
      cases hsp : splitLines rest with
      | nil =>
        rw [hsp] at hl
        rcases List.mem_cons.mp hl with rfl | hl
        · simp
        · simp at hl
      | cons a as =>
        rw [hsp] at hl
        rcases List.mem_cons.mp hl with rfl | hl
        · simp
        · exact ih l (by rw [hsp]; exact List.mem_cons_of_mem a hl)

theorem streamDedup_eq_buffer (h : List Char → List Char) :
    ∀ (ls : List (List Char)), (∀ l ∈ ls, l ≠ []) → ∀ (seen : List (List Char)),
      streamDedupAux h seen ls = bufferDedupAux h seen ls := by
  intro ls
  induction ls with
  | nil => intro _ seen; rfl
  | cons l ls ih =>
    intro hne seen
    rw [streamDedupAux, bufferDedupAux, if_neg (hne l (List.mem_cons_self l ls))]
    have hne' : ∀ x ∈ ls, x ≠ [] := fun x hx => hne x (List.mem_cons_of_mem l hx)
    by_cases hm : h l ∈ seen
    · rw [if_pos hm, if_pos hm]
      exact ih hne' seen
    · rw [if_neg hm, if_neg hm, ih hne' (h l :: seen)]

theorem normalizeStreaming_eq_buffered (h : List Char → List Char) (content : List Char) :
    normalizeStreaming h content = normalizeBuffered h content := by
  rw [normalizeStreaming, normalizeBuffered,
    streamDedup_eq_buffer h (splitLines content) (splitLines_ne_nil content) []]

theorem normalize_file_eq_buffered (h : List Char → List Char) (content : List Char) :
    normalize_file h content = normalizeBuffered h content := by
  rw [normalize_file]
  split
  · exact normalizeStreaming_eq_buffered h content
  · rfl

/-- No newline occurs in a line except possibly as its final character. -/
def noInnerNL (l : List Char) : Prop := ∀ c ∈ l.dropLast, c ≠ '\n'

/-- Well-formed physical-line list: every line is non-empty with no interior
newline, and every line but possibly the last ends with a newline — the
shape `splitLines` produces. -/
def linesWF : List (List Char) → Prop
  | [] => True
  | [l] => l ≠ [] ∧ noInnerNL l
  | l :: ls => l ≠ [] ∧ l.getLast? = some '\n' ∧ noInnerNL l ∧ linesWF ls

theorem linesWF_cons_elim {l : List Char} {ls : List (List Char)}
    (h : linesWF (l :: ls)) :
    l ≠ [] ∧ noInnerNL l ∧ linesWF ls ∧ (ls ≠ [] → l.getLast? = some '\n') := by
  cases ls with
  | nil => exact ⟨h.1, h.2, trivial, fun hc => absurd rfl hc⟩
  | cons l2 ls2 => exact ⟨h.1, h.2.2.1, h.2.2.2, fun _ => h.2.1⟩

theorem linesWF_cons_intro {l : List Char} {ls : List (List Char)} (h1 : l ≠ [])
    (h2 : noInnerNL l) (h3 : linesWF ls) (h4 : ls ≠ [] → l.getLast? = some '\n') :
    linesWF (l :: ls) := by
  cases ls with
  | nil => exact ⟨h1, h2⟩
  | cons l2 ls2 => exact ⟨h1, h4 (by simp), h2, h3⟩

theorem noInnerNL_cons {c : Char} {l : List Char} (hc : c ≠ '\n') (hl : noInnerNL l)
    (hne : l ≠ []) : noInnerNL (c :: l) := by
  intro x hx
  cases l with
  | nil => exact absurd rfl hne
  | cons d ds =>
    rw [List.dropLast_cons₂] at hx
    rcases List.mem_cons.mp hx with rfl | hx
    · exact hc
    · exact hl x hx

theorem noInnerNL_of_cons {c : Char} {l : List Char} (h : noInnerNL (c :: l))
    (hne : l ≠ []) : c ≠ '\n' ∧ noInnerNL l := by
  cases l with
  | nil => exact absurd rfl hne
  | cons d ds =>
    rw [noInnerNL] at h
    rw [List.dropLast_cons₂] at h
    exact ⟨h c (List.mem_cons_self _ _), fun x hx => h x (List.mem_cons_of_mem c hx)⟩

theorem splitLines_wf : ∀ (s : List Char), linesWF (splitLines s) := by
  intro s
  induction s with
  | nil => trivial
  | cons c rest ih =>
    rw [splitLines]
    by_cases hc : c = '\n'
    · rw [if_pos hc]
      refine linesWF_cons_intro (by simp) (by intro x hx; simp at hx) ih (fun _ => rfl)
    · rw [if_neg hc]
      cases hsp : splitLines rest with
      | nil =>
        refine linesWF_cons_intro (by simp) ?_ trivial (fun hcon => absurd rfl hcon)
        intro x hx; simp at hx
      | cons a as =>
        rw [hsp] at ih
        obtain ⟨ha, hai, has, hal⟩ := linesWF_cons_elim ih
        refine linesWF_cons_intro (by simp) (noInnerNL_cons hc hai ha) has ?_
        intro hne
        cases a with
        | nil => exact absurd rfl ha
        | cons d ds =>
          rw [List.getLast?_cons_cons]
          exact hal hne

theorem splitLines_single : ∀ (l : List Char), l ≠ [] → noInnerNL l →
    splitLines l = [l] := by
  intro l
  induction l with
  | nil => intro hne _; exact absurd rfl hne
  | cons c rest ih =>
    intro _ hin
    cases rest with
    | nil =>
      rw [splitLines]
      by_cases hc : c = '\n'
      · rw [if_pos hc, hc]; rfl
      · rw [if_neg hc]; rfl
    | cons d ds =>
      obtain ⟨hc, hrest⟩ := noInnerNL_of_cons hin (by simp)
      rw [splitLines, if_neg hc, ih (by simp) hrest]

theorem splitLines_append_nl : ∀ (l : List Char), l ≠ [] → noInnerNL l →
    l.getLast? = some '\n' → ∀ (rest : List Char),
      splitLines (l ++ rest) = l :: splitLines rest := by
  intro l
  induction l with
  | nil => intro hne _ _; exact absurd rfl hne
  | cons c cs ih =>
    intro _ hin hlast rest
    cases cs with
    | nil =>
      have hc : c = '\n' := by simpa using hlast
      rw [List.cons_append, List.nil_append, splitLines, if_pos hc, hc]
    | cons d ds =>
      obtain ⟨hc, hcs⟩ := noInnerNL_of_cons hin (by simp)
      rw [List.getLast?_cons_cons] at hlast
      rw [List.cons_append, splitLines, if_neg hc,
        ih (by simp) hcs hlast rest]

theorem flatten_splitLines : ∀ (ls : List (List Char)), linesWF ls →
    splitLines ls.flatten = ls := by
  intro ls
  induction ls with
  | nil => intro _; rfl
  | cons l ls ih =>
    intro hwf
    obtain ⟨hne, hin, hls, hlast⟩ := linesWF_cons_elim hwf
    cases ls with
    | nil =>
      rw [List.flatten_cons, List.flatten_nil, List.append_nil]
      exact splitLines_single l hne hin
    | cons l2 ls2 =>
      rw [List.flatten_cons,
        splitLines_append_nl l hne hin (hlast (by simp)) (l2 :: ls2).flatten,
        ih hls]

theorem bufferDedup_nil_of_nil (h : List Char → List Char) (seen : List (List Char)) :
    bufferDedupAux h seen [] = [] := rfl

theorem bufferDedup_wf (h : List Char → List Char) :
    ∀ (ls : List (List Char)), linesWF ls → ∀ (seen : List (List Char)),
      linesWF (bufferDedupAux h seen ls) := by
  intro ls
  induction ls with
  | nil => intro _ seen; trivial
  | cons l ls ih =>
    intro hwf seen
    obtain ⟨hne, hin, hls, hlast⟩ := linesWF_cons_elim hwf
    rw [bufferDedupAux]
    by_cases hm : h l ∈ seen
    · rw [if_pos hm]; exact ih hls seen
    · rw [if_neg hm]
      refine linesWF_cons_intro hne hin (ih hls (h l :: seen)) ?_
      intro hDne
      refine hlast ?_
      intro hcon
      rw [hcon] at hDne
      exact hDne (bufferDedup_nil_of_nil h (h l :: seen))

theorem bufferDedup_idem (h : List Char → List Char) :
    ∀ (ls seen : List (List Char)),
      bufferDedupAux h seen (bufferDedupAux h seen ls) = bufferDedupAux h seen ls := by
  intro ls
  induction ls with
  | nil => intro seen; rfl
  | cons l ls ih =>
    intro seen
    by_cases hm : h l ∈ seen
    · rw [bufferDedupAux, if_pos hm]
      exact ih seen
    · rw [bufferDedupAux, if_neg hm]
      conv_lhs => rw [bufferDedupAux, if_neg hm]
      rw [ih (h l :: seen)]

theorem bufferDedup_eq_keepFirst (h : List Char → List Char)
    (hinj : Function.Injective h) :
    ∀ (ls seenH seenC : List (List Char)),
      (∀ x, h x ∈ seenH ↔ x ∈ seenC) →
      bufferDedupAux h seenH ls = keepFirstAux seenC ls := by
  intro ls
  induction ls with
  | nil => intro _ _ _; rfl
  | cons l ls ih =>
    intro seenH seenC hinv
    rw [bufferDedupAux, keepFirstAux]
    by_cases hm : l ∈ seenC
    · rw [if_pos ((hinv l).mpr hm), if_pos hm]
      exact ih seenH seenC hinv
    · rw [if_neg (fun hc => hm ((hinv l).mp hc)), if_neg hm,
        ih (h l :: seenH) (l :: seenC) ?_]
      intro x
      simp only [List.mem_cons]
      rw [hinj.eq_iff]
      exact or_congr Iff.rfl (hinv x)

/-- C4: for every file content, the streaming line-by-line deduplication
path used at or above the 100 MiB threshold and the full-buffer path used
below it produce byte-identical output (physical lines are never empty, so
the streaming path's empty-line skip never fires), and `normalize_file`
therefore computes the full-buffer result whichever branch it takes. -/
theorem c4_stream_buffer_identical (h : List Char → List Char) (content : List Char) :
    normalizeStreaming h content = normalizeBuffered h content ∧
    normalize_file h content = normalizeBuffered h content :=
  ⟨normalizeStreaming_eq_buffered h content, normalize_file_eq_buffered h content⟩

/-- C3: provided the line digest is collision-free on the input (the
intent of the `md5` digest), `normalize_file` removes exactly the lines
whose byte content equals an earlier line, keeping the first occurrence of
each distinct line in its original relative order, and it is idempotent:
re-running it on its own output changes nothing. -/
theorem c3_dedup_exact_idempotent (h : List Char → List Char) (content : List Char)
    (hinj : Function.Injective h) :
    normalize_file h content = (keepFirstAux [] (splitLines content)).flatten ∧
    normalize_file h (normalize_file h content) = normalize_file h content := by
  constructor
  · rw [normalize_file_eq_buffered, normalizeBuffered,
      bufferDedup_eq_keepFirst h hinj (splitLines content) [] [] (by simp)]
  · rw [normalize_file_eq_buffered, normalize_file_eq_buffered, normalizeBuffered,
      normalizeBuffered,
      flatten_splitLines (bufferDedupAux h [] (splitLines content))
        (bufferDedup_wf h (splitLines content) (splitLines_wf content) []),
      bufferDedup_idem h (splitLines content) []]

/-- C3 witness: with the identity digest (trivially injective) on content
`a\nb\na\n`, `normalize_file` keeps exactly the first occurrences in order
and a second application changes nothing. -/
theorem c3_witness :
    Function.Injective (fun l : List Char => l) ∧
    (normalize_file (fun l : List Char => l) "a\nb\na\n".data =
        (keepFirstAux [] (splitLines "a\nb\na\n".data)).flatten ∧
      normalize_file (fun l : List Char => l)
          (normalize_file (fun l : List Char => l) "a\nb\na\n".data) =
        normalize_file (fun l : List Char => l) "a\nb\na\n".data) :=
  ⟨fun _ _ hab => hab,
    c3_dedup_exact_idempotent (fun l => l) "a\nb\na\n".data (fun _ _ hab => hab)⟩

theorem decodeLines_append_some (toks : List Tok) (canon : String → String)
    (xs ys : List String) (e : String)
    (h : (decodeLines toks canon xs).2 = some e) :
    decodeLines toks canon (xs ++ ys) = decodeLines toks canon xs := by
  induction xs with
  | nil => simp [decodeLines] at h
  | cons l ls ih =>
    show decodeLines toks canon (l :: (ls ++ ys)) = decodeLines toks canon (l :: ls)
    cases hm : mtch toks l.data with
    | none => simp only [decodeLines, hm]
    | some gr =>
      obtain ⟨gs, r⟩ := gr
      simp only [decodeLines, hm] at h
      simp only [decodeLines, hm, ih h]

theorem decodeLines_append_none (toks : List Tok) (canon : String → String)
    (xs ys : List String)
    (h : (decodeLines toks canon xs).2 = none) :
    decodeLines toks canon (xs ++ ys) =
      ((decodeLines toks canon xs).1 ++ (decodeLines toks canon ys).1,
       (decodeLines toks canon ys).2) := by
  induction xs with
  | nil => simp [decodeLines]
  | cons l ls ih =>
    show decodeLines toks canon (l :: (ls ++ ys)) = _
    cases hm : mtch toks l.data with
    | none =>
      simp only [decodeLines, hm] at h
      exact Option.noConfusion h
    | some gr =>
      obtain ⟨gs, r⟩ := gr
      simp only [decodeLines, hm] at h
      simp only [decodeLines, hm, ih h, List.cons_append]

theorem iterFileRegex_of_reconstruct (toks : List Tok) (canon : String → String) :
    ∀ (archive : List (String × List String)) (ls : List String),
      reconstructArchive archive = Except.ok ls →
      iterFileRegex toks canon archive = decodeLines toks canon ls := by
  intro archive
  induction archive with
  | nil =>
    intro ls h
    simp only [reconstructArchive, Except.ok.injEq] at h
    rw [← h]
    rfl
  | cons f rest ih =>
    intro ls h
    obtain ⟨name, content⟩ := f
    rw [reconstructArchive] at h
    cases hm : reconstructMember name content with
    | error e => rw [hm] at h; exact Except.noConfusion h
    | ok ls1 =>
      rw [hm] at h
      cases hr : reconstructArchive rest with
      | error e => rw [hr] at h; exact Except.noConfusion h
      | ok ls2 =>
        rw [hr] at h
        obtain rfl : ls1 ++ ls2 = ls := by injection h
        simp only [iterFileRegex, hm]
        cases he : (decodeLines toks canon ls1).2 with
        | some err =>
          simp only [he, decodeLines_append_some toks canon ls1 ls2 err he]
          exact (Prod.ext_iff.mpr ⟨rfl, he.symm⟩)
        | none =>
          simp only [he, decodeLines_append_none toks canon ls1 ls2 he, ih ls2 hr]

theorem decodeLines_bad (toks : List Tok) (canon : String → String) :
    ∀ (ls : List String), (∃ l ∈ ls, mtch toks l.data = none) →
      (decodeLines toks canon ls).2.isSome = true ∧
      (decodeLines toks canon ls).1 =
        (ls.takeWhile (fun l => (mtch toks l.data).isSome)).map (recordOf toks canon) := by
  intro ls
  induction ls with
  | nil => rintro ⟨l, hl, -⟩; simp at hl
  | cons l ls ih =>
    rintro ⟨x, hx, hbad⟩
    cases hm : mtch toks l.data with
    | none =>
      refine ⟨by simp [decodeLines, hm], ?_⟩
      simp [decodeLines, hm, List.takeWhile_cons]
    | some gr =>
      obtain ⟨gs, r⟩ := gr
      have hx' : x ∈ ls := by
        rcases List.mem_cons.mp hx with rfl | hmem
        · rw [hm] at hbad; exact Option.noConfusion hbad
        · exact hmem
      obtain ⟨h1, h2⟩ := ih ⟨x, hx', hbad⟩
      refine ⟨by simpa [decodeLines, hm] using h1, ?_⟩
      simp only [decodeLines, hm, List.takeWhile_cons, Option.isSome_some, if_true,
        List.map_cons, h2, recordOf]
      rfl

/-- C5: for every category grammar, archive and reconstructed line
sequence, if some reconstructed line fails the grammar then decoding of
the whole run aborts with a reported error, and the records yielded are
exactly the parses of the longest all-matching prefix of the line
sequence — so no line failing its grammar is ever skipped or yielded as a
record. -/
theorem c5_bad_line_aborts (toks : List Tok) (canon : String → String)
    (archive : List (String × List String)) (ls : List String)
    (hrec : reconstructArchive archive = Except.ok ls)
    (hbad : ∃ l ∈ ls, mtch toks l.data = none) :
    (iterFileRegex toks canon archive).2.isSome = true ∧
    (iterFileRegex toks canon archive).1 =
      (ls.takeWhile (fun l => (mtch toks l.data).isSome)).map (recordOf toks canon) := by
  rw [iterFileRegex_of_reconstruct toks canon archive ls hrec]
  exact decodeLines_bad toks canon ls hbad

/-- C5 witness: a definitions member holding the single line `garbage`
reconstructs to `"/a.c" garbage`, which fails the definitions grammar, so
the run aborts with an error and yields no record. -/
theorem c5_witness :
    reconstructArchive [("a.c/execution.txt", ["garbage\n"])] =
      Except.ok ["\"/a.c\" garbage\n"] ∧
    (∃ l ∈ ["\"/a.c\" garbage\n"], mtch definitionsToks l.data = none) ∧
    ((iterFileRegex definitionsToks (fun s => s)
        [("a.c/execution.txt", ["garbage\n"])]).2.isSome = true ∧
      (iterFileRegex definitionsToks (fun s => s)
        [("a.c/execution.txt", ["garbage\n"])]).1 =
        (["\"/a.c\" garbage\n"].takeWhile
            (fun l => (mtch definitionsToks l.data).isSome)).map
          (recordOf definitionsToks (fun s => s))) :=
  ⟨rfl, ⟨"\"/a.c\" garbage\n", by simp, rfl⟩,
    c5_bad_line_aborts definitionsToks (fun s => s)
      [("a.c/execution.txt", ["garbage\n"])] ["\"/a.c\" garbage\n"] rfl
      ⟨"\"/a.c\" garbage\n", by simp, rfl⟩⟩

theorem tryCands_some {k : List Char → Option (List (List Char) × List Char)}
    {cap : Bool} {s : List Char} :
    ∀ {ns : List Nat} {gs : List (List Char)} {rest : List Char},
      tryCands k cap s ns = some (gs, rest) →
      ∃ n gs', k (s.drop n) = some (gs', rest) ∧
        gs = if cap then s.take n :: gs' else gs' := by
  intro ns
  induction ns with
  | nil => intro gs rest h; exact Option.noConfusion h
  | cons n ns ih =>
    intro gs rest h
    rw [tryCands] at h
    cases hk : k (s.drop n) with
    | none => rw [hk] at h; exact ih h
    | some gr =>
      obtain ⟨gs', r'⟩ := gr
      rw [hk] at h
      injection h with h
      rw [Prod.mk.injEq] at h
      obtain ⟨h1, h2⟩ := h
      exact ⟨n, gs', by rw [hk, h2], h1.symm⟩

theorem mtch_groups_length :
    ∀ (toks : List Tok) (s : List Char) (gs : List (List Char)) (rest : List Char),
      mtch toks s = some (gs, rest) → gs.length = countCaptures toks := by
  intro toks
  induction toks with
  | nil =>
    intro s gs rest h
    simp only [mtch] at h
    injection h with h
    rw [Prod.mk.injEq] at h
    rw [← h.1]
    rfl
  | cons t ts ih =>
    intro s gs rest h
    cases t with
    | lit c =>
      cases s with
      | nil => exact Option.noConfusion h
      | cons x s' =>
        replace h : (if x = c then mtch ts s' else none) = some (gs, rest) := h
        by_cases hx : x = c
        · rw [if_pos hx] at h
          rw [countCaptures]
          exact ih s' gs rest h
        · rw [if_neg hx] at h
          exact Option.noConfusion h
    | starG p cap =>
      replace h : tryCands (mtch ts) cap s
          ((List.range ((s.takeWhile p).length + 1)).reverse) = some (gs, rest) := h
      obtain ⟨n, gs', hk, hgs⟩ := tryCands_some h
      have hlen := ih _ gs' rest hk
      rw [countCaptures, hgs]
      cases cap with
      | false => simpa using hlen
      | true => simp [hlen, Nat.add_comm]
    | starL p cap =>
      replace h : tryCands (mtch ts) cap s
          (List.range ((s.takeWhile p).length + 1)) = some (gs, rest) := h
      obtain ⟨n, gs', hk, hgs⟩ := tryCands_some h
      have hlen := ih _ gs' rest hk
      rw [countCaptures, hgs]
      cases cap with
      | false => simpa using hlen
      | true => simp [hlen, Nat.add_comm]
    | plusG p cap =>
      replace h : tryCands (mtch ts) cap s
          ((List.range' 1 (s.takeWhile p).length).reverse) = some (gs, rest) := h
      obtain ⟨n, gs', hk, hgs⟩ := tryCands_some h
      have hlen := ih _ gs' rest hk
      rw [countCaptures, hgs]
      cases cap with
      | false => simpa using hlen
      | true => simp [hlen, Nat.add_comm]

theorem modIdx_length {α : Type} (f : α → α) :
    ∀ (n : Nat) (l : List α), (modIdx f n l).length = l.length := by
  intro n l
  induction l generalizing n with
  | nil => cases n <;> rfl
  | cons x xs ih =>
    cases n with
    | zero => rfl
    | succ m => simp only [modIdx, List.length_cons, ih m]

theorem mkRecord_length (canon : String → String) (gs : List (List Char)) :
    (mkRecord canon gs).length = gs.length := by
  rw [mkRecord, modIdx_length, List.length_map]

theorem decodeLines_record_length (toks : List Tok) (canon : String → String) :
    ∀ (ls : List String), ∀ r ∈ (decodeLines toks canon ls).1,
      r.length = countCaptures toks := by
  intro ls
  induction ls with
  | nil => intro r hr; simp [decodeLines] at hr
  | cons l ls ih =>
    intro r hr
    cases hm : mtch toks l.data with
    | none => simp [decodeLines, hm] at hr
    | some gr =>
      obtain ⟨gs, rem⟩ := gr
      simp only [decodeLines, hm] at hr
      rcases List.mem_cons.mp hr with rfl | hr
      · rw [mkRecord_length]
        exact mtch_groups_length toks l.data gs rem hm
      · exact ih r hr

theorem iterFileRegex_record_length (toks : List Tok) (canon : String → String) :
    ∀ (archive : List (String × List String)),
      ∀ r ∈ (iterFileRegex toks canon archive).1, r.length = countCaptures toks := by
  intro archive
  induction archive with
  | nil => intro r hr; simp [iterFileRegex] at hr
  | cons f rest ih =>
    obtain ⟨name, content⟩ := f
    intro r hr
    cases hm : reconstructMember name content with
    | error e => simp [iterFileRegex, hm] at hr
    | ok ls =>
      simp only [iterFileRegex, hm] at hr
      cases he : (decodeLines toks canon ls).2 with
      | some err =>
        simp only [he] at hr
        exact decodeLines_record_length toks canon ls r hr
      | none =>
        simp only [he] at hr
        rcases List.mem_append.mp hr with h | h
        · exact decodeLines_record_length toks canon ls r h
        · exact ih r h

theorem getIdx_modIdx (f : String → String) :
    ∀ (n : Nat) (l : List String), n < l.length →
      getIdx (modIdx f n l) n = f (getIdx l n) := by
  intro n l
  induction l generalizing n with
  | nil => intro h; simp at h
  | cons x xs ih =>
    intro h
    cases n with
    | zero => rfl
    | succ m => exact ih m (Nat.lt_of_succ_lt_succ h)

theorem getIdx_take : ∀ (l : List String) (m n : Nat), n < m →
    getIdx (l.take m) n = getIdx l n := by
  intro l
  induction l with
  | nil => intro m n _; rw [List.take_nil]
  | cons x xs ih =>
    intro m n h
    cases m with
    | zero => exact absurd h (Nat.not_lt_zero n)
    | succ m' =>
      cases n with
      | zero => rfl
      | succ n' => exact ih m' n' (Nat.lt_of_succ_lt_succ h)

theorem normalizeLinkage_cases (s : String) :
    normalizeLinkage s = "extern" ∨ normalizeLinkage s = "static" := by
  by_cases h : s = "static" <;> simp [normalizeLinkage, h]

/-- C6: every record yielded by the definitions, declarations,
global-inits, calls and function-usages decoders is the raw grammar match
with its linkage field passed through `normalizeLinkage`, which returns
`static` exactly on the literal token `static` and `extern` on every other
token; consequently every yielded linkage field is exactly `extern` or
`static`. -/
theorem c6_linkage_normalized (canon : String → String)
    (archive : List (String × List String)) :
    (∀ s : String, (normalizeLinkage s = "static" ↔ s = "static") ∧
      (normalizeLinkage s = "extern" ∨ normalizeLinkage s = "static")) ∧
    (iter_definitions canon archive).1 =
      (iterFileRegex definitionsToks canon archive).1.map (modIdx normalizeLinkage 4) ∧
    (iter_declarations canon archive).1 =
      (iterFileRegex declarationsToks canon archive).1.map (modIdx normalizeLinkage 4) ∧
    (iter_init_global canon archive).1 =
      (iterFileRegex initGlobalToks canon archive).1.map (modIdx normalizeLinkage 3) ∧
    (iter_functions_usages canon archive).1 =
      (iterFileRegex useFuncToks canon archive).1.map (modIdx normalizeLinkage 5) ∧
    (iter_calls canon archive).1 =
      (iterFileRegex callsToks canon archive).1.map
        (fun r => ((modIdx normalizeLinkage 5 r).take 6, parseCallArgs (getIdx r 6))) ∧
    (∀ r ∈ (iter_definitions canon archive).1,
      getIdx r 4 = "extern" ∨ getIdx r 4 = "static") ∧
    (∀ r ∈ (iter_declarations canon archive).1,
      getIdx r 4 = "extern" ∨ getIdx r 4 = "static") ∧
    (∀ r ∈ (iter_init_global canon archive).1,
      getIdx r 3 = "extern" ∨ getIdx r 3 = "static") ∧
    (∀ r ∈ (iter_functions_usages canon archive).1,
      getIdx r 5 = "extern" ∨ getIdx r 5 = "static") ∧
    (∀ r ∈ (iter_calls canon archive).1,
      getIdx r.1 5 = "extern" ∨ getIdx r.1 5 = "static") := by
  refine ⟨?_, rfl, rfl, rfl, rfl, rfl, ?_, ?_, ?_, ?_, ?_⟩
  · intro s
    constructor
    · by_cases h : s = "static" <;> simp [normalizeLinkage, h]
    · exact normalizeLinkage_cases s
  · intro r hr
    obtain ⟨raw, hraw, rfl⟩ := List.mem_map.mp hr
    have hlen : raw.length = 6 :=
      iterFileRegex_record_length definitionsToks canon archive raw hraw
    rw [getIdx_modIdx normalizeLinkage 4 raw (by rw [hlen]; exact by norm_num)]
    exact normalizeLinkage_cases _
  · intro r hr
    obtain ⟨raw, hraw, rfl⟩ := List.mem_map.mp hr
    have hlen : raw.length = 6 :=
      iterFileRegex_record_length declarationsToks canon archive raw hraw
    rw [getIdx_modIdx normalizeLinkage 4 raw (by rw [hlen]; exact by norm_num)]
    exact normalizeLinkage_cases _
  · intro r hr
    obtain ⟨raw, hraw, rfl⟩ := List.mem_map.mp hr
    have hlen : raw.length = 5 :=
      iterFileRegex_record_length initGlobalToks canon archive raw hraw
    rw [getIdx_modIdx normalizeLinkage 3 raw (by rw [hlen]; exact by norm_num)]
    exact normalizeLinkage_cases _
  · intro r hr
    obtain ⟨raw, hraw, rfl⟩ := List.mem_map.mp hr
    have hlen : raw.length = 6 :=
      iterFileRegex_record_length useFuncToks canon archive raw hraw
    rw [getIdx_modIdx normalizeLinkage 5 raw (by rw [hlen]; exact by norm_num)]
    exact normalizeLinkage_cases _
  · intro r hr
    obtain ⟨raw, hraw, rfl⟩ := List.mem_map.mp hr
    have hlen : raw.length = 7 :=
      iterFileRegex_record_length callsToks canon archive raw hraw
    show getIdx ((modIdx normalizeLinkage 5 raw).take 6) 5 = "extern" ∨
      getIdx ((modIdx normalizeLinkage 5 raw).take 6) 5 = "static"
    rw [getIdx_take (modIdx normalizeLinkage 5 raw) 6 5 (by norm_num),
      getIdx_modIdx normalizeLinkage 5 raw (by rw [hlen]; exact by norm_num)]
    exact normalizeLinkage_cases _

theorem lookupK_eq_none (k : String) :
    ∀ (st : List (String × String)), (∀ kv ∈ st, kv.1 ≠ k) → lookupK k st = none := by
  intro st
  induction st with
  | nil => intro _; rfl
  | cons kv rest ih =>
    intro h
    obtain ⟨k', v⟩ := kv
    rw [lookupK, if_neg (fun hc => h (k', v) (List.mem_cons_self _ _) hc.symm)]
    exact ih fun kv hkv => h kv (List.mem_cons_of_mem _ hkv)

theorem lookupK_append_left_none (k : String) :
    ∀ (xs ys : List (String × String)), lookupK k xs = none →
      lookupK k (xs ++ ys) = lookupK k ys := by
  intro xs
  induction xs with
  | nil => intro ys _; rfl
  | cons kv rest ih =>
    intro ys h
    obtain ⟨k', v⟩ := kv
    rw [lookupK] at h
    by_cases hc : k = k'
    · rw [if_pos hc] at h; exact Option.noConfusion h
    · rw [if_neg hc] at h
      rw [List.cons_append, lookupK, if_neg hc]
      exact ih ys h

theorem lookupK_keys_none (np : String → String) (k : String)
    (fs : List (String × List String)) (h : ∀ g ∈ fs, np g.1 ≠ k) :
    lookupK k ((fs.map (fun f => (np f.1, f.1))).reverse) = none := by
  apply lookupK_eq_none
  intro kv hkv
  rw [List.mem_reverse] at hkv
  obtain ⟨g, hg, rfl⟩ := List.mem_map.mp hkv
  exact h g hg

theorem appendTo_skip (extra : List String) (owner : String) :
    ∀ (xs : List (String × List String)), (∀ g ∈ xs, g.1 ≠ owner) →
      appendTo xs owner extra = xs := by
  intro xs
  induction xs with
  | nil => intro _; rfl
  | cons g gs ih =>
    intro h
    rw [appendTo, List.map_cons, if_neg (h g (List.mem_cons_self _ _))]
    rw [show List.map
      (fun g => if g.1 = owner then (g.1, g.2 ++ extra) else g) gs =
        appendTo gs owner extra from rfl]
    rw [ih fun g hg => h g (List.mem_cons_of_mem _ hg)]

theorem appendTo_eq (xs ys : List (String × List String)) (owner : String)
    (l1 extra : List String) (hx : ∀ g ∈ xs, g.1 ≠ owner)
    (hy : ∀ g ∈ ys, g.1 ≠ owner) :
    appendTo (xs ++ (owner, l1) :: ys) owner extra = xs ++ (owner, l1 ++ extra) :: ys := by
  rw [appendTo, List.map_append, List.map_cons, if_pos rfl]
  rw [show List.map
    (fun g => if g.1 = owner then (g.1, g.2 ++ extra) else g) xs =
      appendTo xs owner extra from rfl]
  rw [show List.map
    (fun g => if g.1 = owner then (g.1, g.2 ++ extra) else g) ys =
      appendTo ys owner extra from rfl]
  rw [appendTo_skip extra owner xs hx, appendTo_skip extra owner ys hy]

theorem fix_step_none (np : String → String) (st : List (String × String))
    (kept : List (String × List String)) (f : String × List String)
    (h : lookupK (np f.1) st = none) :
    fix_step np (st, kept) f = ((np f.1, f.1) :: st, kept ++ [f]) := by
  have heq : fix_step np (st, kept) f =
      match lookupK (np f.1) st with
      | none => ((np f.1, f.1) :: st, kept ++ [f])
      | some owner => (st, appendTo kept owner f.2) := rfl
  rw [heq, h]

theorem fix_step_some (np : String → String) (st : List (String × String))
    (kept : List (String × List String)) (f : String × List String) (owner : String)
    (h : lookupK (np f.1) st = some owner) :
    fix_step np (st, kept) f = (st, appendTo kept owner f.2) := by
  have heq : fix_step np (st, kept) f =
      match lookupK (np f.1) st with
      | none => ((np f.1, f.1) :: st, kept ++ [f])
      | some owner => (st, appendTo kept owner f.2) := rfl
  rw [heq, h]

theorem foldl_fix_fresh (np : String → String) :
    ∀ (fs : List (String × List String)) (st : List (String × String))
      (kept : List (String × List String)),
      (∀ f ∈ fs, lookupK (np f.1) st = none) →
      (fs.map (fun f => np f.1)).Nodup →
      fs.foldl (fix_step np) (st, kept) =
        ((fs.map (fun f => (np f.1, f.1))).reverse ++ st, kept ++ fs) := by
  intro fs
  induction fs with
  | nil => intro st kept _ _; simp
  | cons f fs ih =>
    intro st kept hfresh hnodup
    rw [List.map_cons] at hnodup
    obtain ⟨hnotin, hnodup'⟩ := List.nodup_cons.mp hnodup
    rw [List.foldl_cons,
      fix_step_none np st kept f (hfresh f (List.mem_cons_self _ _)),
      ih ((np f.1, f.1) :: st) (kept ++ [f])
        (fun g hg => by
          rw [lookupK,
            if_neg (fun hc : np g.1 = np f.1 =>
              hnotin (hc ▸ List.mem_map.mpr ⟨g, hg, rfl⟩))]
          exact hfresh g (List.mem_cons_of_mem _ hg))
        hnodup']
    rw [Prod.mk.injEq]
    constructor
    · rw [List.map_cons, List.reverse_cons, List.append_assoc]
      rfl
    · rw [List.append_assoc]
      rfl

/-- C2: if exactly two raw output files in the scanned collection share a
normalized logical path (the first-encountered file `p1`, the later file
`p2`, every other file having a distinct identity), the repair step keeps
exactly one file with that identity — the first one, its line sequence now
the first file's lines followed by the second file's lines — and the second
file is removed from the result, where it consequently appears nowhere. -/
theorem c2_duplicate_merged (np : String → String)
    (A B C : List (String × List String)) (p1 p2 : String) (l1 l2 : List String)
    (hnp : np p1 = np p2) (hne : p1 ≠ p2)
    (hother : ∀ g ∈ A ++ B ++ C, np g.1 ≠ np p1)
    (hnodup : ((A ++ B ++ C).map (fun g => np g.1)).Nodup) :
    fix_wrong_paths np (A ++ (p1, l1) :: B ++ (p2, l2) :: C) =
      A ++ (p1, l1 ++ l2) :: (B ++ C) ∧
    p2 ∉ (fix_wrong_paths np (A ++ (p1, l1) :: B ++ (p2, l2) :: C)).map Prod.fst ∧
    (fix_wrong_paths np (A ++ (p1, l1) :: B ++ (p2, l2) :: C)).countP
      (fun g => np g.1 == np p1) = 1 := by
  have hA : ∀ g ∈ A, np g.1 ≠ np p1 := fun g hg =>
    hother g (by simp [List.mem_append, hg])
  have hB : ∀ g ∈ B, np g.1 ≠ np p1 := fun g hg =>
    hother g (by simp [List.mem_append, hg])
  have hC : ∀ g ∈ C, np g.1 ≠ np p1 := fun g hg =>
    hother g (by simp [List.mem_append, hg])
  have hsplit : ((A ++ B ++ C).map (fun g => np g.1)) =
      (A.map (fun g => np g.1) ++ B.map (fun g => np g.1)) ++ C.map (fun g => np g.1) := by
    simp [List.map_append]
  rw [hsplit] at hnodup
  obtain ⟨hAB, hCn, hdAB_C⟩ := List.nodup_append.mp hnodup
  obtain ⟨hAn, hBn, hdA_B⟩ := List.nodup_append.mp hAB
  -- distinctness facts across the groups
  have hBA : ∀ g ∈ B, ∀ a ∈ A, np g.1 ≠ np a.1 := by
    intro g hg a ha hc
    exact hdA_B (hc ▸ List.mem_map.mpr ⟨a, ha, rfl⟩) (List.mem_map.mpr ⟨g, hg, rfl⟩)
  have hCA : ∀ g ∈ C, ∀ a ∈ A, np g.1 ≠ np a.1 := by
    intro g hg a ha hc
    exact hdAB_C (List.mem_append.mpr (Or.inl (hc ▸ List.mem_map.mpr ⟨a, ha, rfl⟩)))
      (List.mem_map.mpr ⟨g, hg, rfl⟩)
  have hCB : ∀ g ∈ C, ∀ b ∈ B, np g.1 ≠ np b.1 := by
    intro g hg b hb hc
    exact hdAB_C (List.mem_append.mpr (Or.inr (hc ▸ List.mem_map.mpr ⟨b, hb, rfl⟩)))
      (List.mem_map.mpr ⟨g, hg, rfl⟩)
  -- run the fold; the input list parses as (A ++ ((p1,l1) :: B)) ++ ((p2,l2) :: C)
  have hmain : fix_wrong_paths np (A ++ (p1, l1) :: B ++ (p2, l2) :: C) =
      A ++ (p1, l1 ++ l2) :: (B ++ C) := by
    have stage1 : List.foldl (fix_step np) ([], []) A =
        ((A.map (fun f => (np f.1, f.1))).reverse, A) := by
      rw [foldl_fix_fresh np A [] [] (fun f _ => rfl) hAn]
      simp
    have hstep1 : fix_step np ((A.map (fun f => (np f.1, f.1))).reverse, A) (p1, l1) =
        ((np p1, p1) :: (A.map (fun f => (np f.1, f.1))).reverse, A ++ [(p1, l1)]) :=
      fix_step_none np _ _ (p1, l1) (lookupK_keys_none np (np p1) A hA)
    have stage2 : List.foldl (fix_step np) ([], []) (A ++ (p1, l1) :: B) =
        ((B.map (fun f => (np f.1, f.1))).reverse ++
          ((np p1, p1) :: (A.map (fun f => (np f.1, f.1))).reverse),
         (A ++ [(p1, l1)]) ++ B) := by
      rw [List.foldl_append, stage1, List.foldl_cons, hstep1,
        foldl_fix_fresh np B ((np p1, p1) :: (A.map (fun f => (np f.1, f.1))).reverse)
          (A ++ [(p1, l1)])
          (fun g hg => by
            rw [lookupK, if_neg (hB g hg)]
            exact lookupK_keys_none np (np g.1) A
              (fun a ha hc => hBA g hg a ha hc.symm))
          hBn]
    have hlook : lookupK (np p2)
        ((B.map (fun f => (np f.1, f.1))).reverse ++
          ((np p1, p1) :: (A.map (fun f => (np f.1, f.1))).reverse)) = some p1 := by
      rw [lookupK_append_left_none _ _ _
        (lookupK_keys_none np (np p2) B (fun b hb hc => hB b hb (hc.trans hnp.symm))),
        lookupK, if_pos hnp.symm]
    have hstep2 : fix_step np
        ((B.map (fun f => (np f.1, f.1))).reverse ++
          ((np p1, p1) :: (A.map (fun f => (np f.1, f.1))).reverse),
         (A ++ [(p1, l1)]) ++ B) (p2, l2) =
        ((B.map (fun f => (np f.1, f.1))).reverse ++
          ((np p1, p1) :: (A.map (fun f => (np f.1, f.1))).reverse),
         appendTo ((A ++ [(p1, l1)]) ++ B) p1 l2) :=
      fix_step_some np _ _ (p2, l2) p1 hlook
    have happ : appendTo ((A ++ [(p1, l1)]) ++ B) p1 l2 =
        A ++ (p1, l1 ++ l2) :: B := by
      rw [show ((A ++ [(p1, l1)]) ++ B) = A ++ (p1, l1) :: B by simp]
      exact appendTo_eq A B p1 l1 l2
        (fun a ha hc => hA a ha (by rw [hc]))
        (fun b hb hc => hB b hb (by rw [hc]))
    have stage3 : List.foldl (fix_step np) ([], [])
        (A ++ (p1, l1) :: B ++ (p2, l2) :: C) =
        ((C.map (fun f => (np f.1, f.1))).reverse ++
          ((B.map (fun f => (np f.1, f.1))).reverse ++
            ((np p1, p1) :: (A.map (fun f => (np f.1, f.1))).reverse)),
         (A ++ (p1, l1 ++ l2) :: B) ++ C) := by
      rw [List.foldl_append, stage2, List.foldl_cons, hstep2, happ,
        foldl_fix_fresh np C
          ((B.map (fun f => (np f.1, f.1))).reverse ++
            ((np p1, p1) :: (A.map (fun f => (np f.1, f.1))).reverse))
          (A ++ (p1, l1 ++ l2) :: B)
          (fun g hg => by
            rw [lookupK_append_left_none (np g.1) _ _
              (lookupK_keys_none np (np g.1) B
                (fun b hb hc => hCB g hg b hb hc.symm)),
              lookupK, if_neg (hC g hg)]
            exact lookupK_keys_none np (np g.1) A
              (fun a ha hc => hCA g hg a ha hc.symm))
          hCn]
    rw [fix_wrong_paths, stage3]
    simp
  refine ⟨hmain, ?_, ?_⟩
  · rw [hmain]
    intro hmem
    rw [List.mem_map] at hmem
    obtain ⟨g, hg, hgp⟩ := hmem
    rcases List.mem_append.mp hg with hg | hg
    · exact hA g hg (by rw [hgp, hnp])
    · rcases List.mem_cons.mp hg with rfl | hg
      · exact hne (by simpa using hgp)
      · rcases List.mem_append.mp hg with hg | hg
        · exact hB g hg (by rw [hgp, hnp])
        · exact hC g hg (by rw [hgp, hnp])
  · rw [hmain, List.countP_append, List.countP_cons]
    have hzA : A.countP (fun g => np g.1 == np p1) = 0 :=
      List.countP_eq_zero.mpr fun g hg => by simpa using hA g hg
    have hzB : B.countP (fun g => np g.1 == np p1) = 0 :=
      List.countP_eq_zero.mpr fun g hg => by simpa using hB g hg
    have hzC : C.countP (fun g => np g.1 == np p1) = 0 :=
      List.countP_eq_zero.mpr fun g hg => by simpa using hC g hg
    rw [List.countP_append, hzA, hzB, hzC]
    simp

/-- C2 witness: two files `f1` and `f2` with the same normalized path
merge into a single file `f1` carrying both line sequences, `f2` gone. -/
theorem c2_witness :
    ((fun _ : String => "x") "f1" = (fun _ : String => "x") "f2") ∧ ("f1" : String) ≠ "f2" ∧
    fix_wrong_paths (fun _ => "x") [("f1", ["a"]), ("f2", ["b"])] = [("f1", ["a", "b"])] ∧
    ("f2" : String) ∉ (fix_wrong_paths (fun _ => "x")
      [("f1", ["a"]), ("f2", ["b"])]).map Prod.fst :=
  have h := c2_duplicate_merged (fun _ => "x") [] [] [] "f1" "f2" ["a"] ["b"] rfl
    (by decide) (by intro g hg; simp at hg) (by simp)
  ⟨rfl, by decide, h.1, h.2.1⟩

/-- C9 counterexample: the input name `a.s\n` does not end in `.s` or `.S`,
so the claim's condition declares the command eligible, yet the code marks
it ineligible — `re.search(r"\.[sS]$", ...)` also matches just before a
newline that ends the string. -/
theorem c9_counterexample :
    is_cmd_bad_for_cif ["a.s\n"] = true ∧ specIneligible ["a.s\n"] = false := by
  constructor <;> rfl

/-- C9 (amended): the filter marks a command ineligible exactly when it has
no input files, or some input equals `-` or `/dev/null`, or some input's
name ends in `.s` or `.S` — or, because `$` in the Python regex also
matches just before a final newline, ends in `.s` or `.S` followed by one
trailing newline. -/
theorem c9_filter_amended (ins : List String) :
    is_cmd_bad_for_cif ins = true ↔
      ins = [] ∨ ∃ i ∈ ins, i = "-" ∨ i = "/dev/null" ∨
        ".s".data <:+ i.data ∨ ".S".data <:+ i.data ∨
        ".s\n".data <:+ i.data ∨ ".S\n".data <:+ i.data := by
  simp [is_cmd_bad_for_cif, matchesAsmRegex, isSuf_iff, List.isEmpty_iff,
    List.any_eq_true, or_assoc]

/-- C10: an archive member whose directory component contains the
two-character sequence `\/` is rejected by the decoder with the
"Normalized path looks weird" error before any line of it is
reconstructed, so decoding that member yields no record at all, for every
category grammar. -/
theorem c10_weird_path_aborts (name : String) (content : List String)
    (toks : List Tok) (canon : String → String)
    (h : containsSub ['\\', '/'] (dirname name).data = true) :
    reconstructMember name content =
      Except.error ("Normalized path looks weird: " ++ dirname name) ∧
    iterFileRegex toks canon [(name, content)] =
      ([], some ("Normalized path looks weird: " ++ dirname name)) := by
  have h1 : reconstructMember name content =
      Except.error ("Normalized path looks weird: " ++ dirname name) := by
    unfold reconstructMember
    simp [h]
  exact ⟨h1, by simp [iterFileRegex, h1]⟩

/-- C10 witness: the member `a\/b/execution.txt` has directory component
`a\/b`, which contains `\/`, and decoding an archive holding it aborts
with the weird-path error and yields no record. -/
theorem c10_witness :
    containsSub ['\\', '/'] (dirname "a\\/b/execution.txt").data = true ∧
    iterFileRegex [] (fun s => s) [("a\\/b/execution.txt", ["x\n"])] =
      ([], some ("Normalized path looks weird: " ++ dirname "a\\/b/execution.txt")) :=
  ⟨by decide, (c10_weird_path_aborts "a\\/b/execution.txt" ["x\n"] [] (fun s => s)
    (by decide)).2⟩

/-- C1: packaging a raw definitions output file for source `/a.c` holding
the single fixed-format line `3 foo 10 extern int foo(void)` (which the
decoder reconstructs as `"/a.c" 3 foo 10 extern int foo(void)`) and then
decoding the definitions archive yields exactly one record, whose fields
are the canonicalized path `/a.c`, cmd-id `3`, name `foo`, line `10`,
linkage `extern` and signature `int foo(void)`, with no decoding error. -/
theorem c1_definitions_roundtrip (canon : String → String) :
    iter_definitions canon
      (packageCategory "/out" "/st" "execution.txt"
        [("/out/st/a.c/execution.txt", ["3 foo 10 extern int foo(void)\n"])]) =
      ([[canon "/a.c", "3", "foo", "10", "extern", "int foo(void)"]], none) := rfl

/-- C8: the raw-args text `actual_arg_func_name1=foo actual_arg_func_name3=bar`
of a calls record decodes to the argument list `[(1, foo), (3, bar)]`, the
pairs in the textual order of the `actual_arg_func_name<N>=<token>`
occurrences; and every record yielded by the calls decoder carries exactly
the decoded argument list of its line's raw-args field. -/
theorem c8_call_args_order :
    parseCallArgs "actual_arg_func_name1=foo actual_arg_func_name3=bar" =
      [("1", "foo"), ("3", "bar")] ∧
    ∀ (canon : String → String) (archive : List (String × List String)),
      ((iter_calls canon archive).1).map Prod.snd =
        ((iterFileRegex callsToks canon archive).1).map
          (fun r => parseCallArgs (getIdx r 6)) := by
  refine ⟨rfl, fun canon archive => ?_⟩
  simp [iter_calls, List.map_map, Function.comp]
